import Mathlib

/-!
Verification of the pathfinder tile-svg core (`utils/tile-svg/src/main.rs`,
with geometry helpers from `geometry/src/lib.rs`'s submodules).

Shallow embedding conventions:
* `f32` coordinates are modelled as exact rationals (`ℚ`); the SIMD lane
  operations of the source are decoded to their scalar effect on named lanes.
* Machine integers are modelled as `ℤ`/`ℕ`, with an explicit `% 2^w` exactly
  where the source performs wrapping machine arithmetic (`u16` addition in
  `ZBuffer::update`, the `as u16` casts in `SceneBuilder::build_batch` and
  `BuiltObject::add_fill`).
* Vectors (`Vec<T>`, `FixedBitSet`) are modelled as `List`s; atomics are
  modelled by their sequential semantics (a CAS loop with no contention
  reduces to compare-then-store).
-/

namespace Pathfinder

/-! ## SortedVector (`SortedVector<T>` in main.rs)

`push` appends the value and then swaps it leftwards while its predecessor is
greater (`if self.array[index] <= self.array[index + 1] { break }`).
`peek`/`pop` act on the last element of the vector. -/

structure SortedVector (α : Type _) where
  array : List α

/-- The swap-leftwards loop of `SortedVector::push`, viewed from the right end
of the vector: the argument list is the vector reversed, the value moves past
every element greater than it and stops at the first element `≤` it. -/
def pushHelper [LinearOrder α] (v : α) : List α → List α
  | [] => [v]
  | x :: xs => if x ≤ v then v :: x :: xs else x :: pushHelper v xs

def SortedVector.new (α : Type _) : SortedVector α := ⟨[]⟩

def SortedVector.push [LinearOrder α] (s : SortedVector α) (v : α) : SortedVector α :=
  ⟨(pushHelper v s.array.reverse).reverse⟩

def SortedVector.peek (s : SortedVector α) : Option α := s.array.getLast?

def SortedVector.pop (s : SortedVector α) : Option α × SortedVector α :=
  (s.array.getLast?, ⟨s.array.dropLast⟩)

def SortedVector.pushAll [LinearOrder α] (s : SortedVector α) (V : List α) : SortedVector α :=
  V.foldl SortedVector.push s

/-- `while !is_empty { results.push(pop) }` (fuelled by the length, which is
exactly the number of iterations the loop performs). -/
def popAllAux : ℕ → List α → List α
  | 0, _ => []
  | n + 1, l =>
    match l.getLast? with
    | none => []
    | some x => x :: popAllAux n l.dropLast

def SortedVector.popAll (s : SortedVector α) : List α :=
  popAllAux s.array.length s.array

theorem popAllAux_eq_reverse : ∀ l : List α, popAllAux l.length l = l.reverse := by
  intro l
  induction l using List.reverseRecOn with
  | nil => simp [popAllAux]
  | append_singleton xs x ih =>
      have hlen : (xs ++ [x]).length = xs.length + 1 := by simp
      rw [hlen]
      simp only [popAllAux, List.getLast?_concat, List.dropLast_concat]
      rw [ih]
      simp

theorem popAll_eq_reverse (s : SortedVector α) : s.popAll = s.array.reverse :=
  popAllAux_eq_reverse s.array

theorem pushHelper_perm [LinearOrder α] (v : α) (l : List α) :
    List.Perm (pushHelper v l) (v :: l) := by
  induction l with
  | nil => simp [pushHelper]
  | cons x xs ih =>
      by_cases h : x ≤ v
      · simp [pushHelper, h]
      · simp only [pushHelper, if_neg h]
        exact (ih.cons x).trans (List.Perm.swap v x xs)

theorem pushHelper_sorted [LinearOrder α] (v : α) (l : List α)
    (hl : l.Sorted (· ≥ ·)) : (pushHelper v l).Sorted (· ≥ ·) := by
  induction l with
  | nil => simp [pushHelper]
  | cons x xs ih =>
      rw [List.sorted_cons] at hl
      by_cases h : x ≤ v
      · rw [pushHelper, if_pos h, List.sorted_cons]
        refine ⟨?_, ?_⟩
        · intro b hb
          rcases List.mem_cons.mp hb with rfl | hb
          · exact h
          · exact le_trans (hl.1 b hb) h
        · rw [List.sorted_cons]
          exact hl
      · rw [pushHelper, if_neg h, List.sorted_cons]
        refine ⟨?_, ih hl.2⟩
        intro b hb
        rcases List.mem_cons.mp ((pushHelper_perm v xs).mem_iff.mp hb) with rfl | hb
        · exact le_of_not_le h
        · exact hl.1 b hb

theorem push_array_perm [LinearOrder α] (s : SortedVector α) (v : α) :
    List.Perm (s.push v).array (v :: s.array) := by
  have h1 : List.Perm (s.push v).array (pushHelper v s.array.reverse) :=
    (List.reverse_perm _)
  exact h1.trans ((pushHelper_perm v _).trans ((List.reverse_perm _).cons v))

theorem push_array_sorted [LinearOrder α] (s : SortedVector α) (v : α)
    (hs : s.array.Sorted (· ≤ ·)) : (s.push v).array.Sorted (· ≤ ·) := by
  have hrev : s.array.reverse.Sorted (· ≥ ·) :=
    List.pairwise_reverse.mpr hs
  have := pushHelper_sorted v s.array.reverse hrev
  exact List.pairwise_reverse.mpr this

theorem pushAll_array [LinearOrder α] (s : SortedVector α) (V : List α)
    (hs : s.array.Sorted (· ≤ ·)) :
    (s.pushAll V).array.Sorted (· ≤ ·) ∧ List.Perm (s.pushAll V).array (V ++ s.array) := by
  induction V generalizing s with
  | nil => exact ⟨hs, by simp [SortedVector.pushAll]⟩
  | cons x xs ih =>
      have hstep := ih (s.push x) (push_array_sorted s x hs)
      refine ⟨hstep.1, ?_⟩
      have h2 : List.Perm (xs ++ (s.push x).array) (xs ++ (x :: s.array)) :=
        List.Perm.append_left xs (push_array_perm s x)
      have h3 : List.Perm (xs ++ (x :: s.array)) ((x :: xs) ++ s.array) :=
        List.perm_middle
      exact (hstep.2.trans h2).trans h3

/-- C3 counterexample: for V = [0, 1], pushing all elements and popping until
empty yields [1, 0] (pop removes the maximum), not sort(V) = [0, 1]; the
claimed identity pop_all(push_all(V)) = sort(V) is false. -/
theorem sorted_vector_pop_all_ne_sort :
    ((SortedVector.new ℤ).pushAll [0, 1]).popAll ≠ List.insertionSort (· ≤ ·) [(0 : ℤ), 1] := by
  decide

/-- C3 (amended): pushing all elements of V into a fresh SortedVector and
popping until empty yields the elements of V in descending order, i.e. the
reverse of the ascending sort of V (this matches the source's own property
test, which reverses the popped sequence before comparing with sort(V)). -/
theorem sorted_vector_pop_all_eq_reverse_sort [LinearOrder α] (V : List α) :
    ((SortedVector.new α).pushAll V).popAll = (List.insertionSort (· ≤ ·) V).reverse := by
  have h := pushAll_array (SortedVector.new α) V (by simp [SortedVector.new])
  have hperm : List.Perm ((SortedVector.new α).pushAll V).array (List.insertionSort (· ≤ ·) V) := by
    have h1 : List.Perm ((SortedVector.new α).pushAll V).array V := by
      simpa [SortedVector.new] using h.2
    exact h1.trans (List.perm_insertionSort (· ≤ ·) V).symm
  have harr : ((SortedVector.new α).pushAll V).array = List.insertionSort (· ≤ ·) V :=
    List.eq_of_perm_of_sorted hperm h.1 (List.sorted_insertionSort (· ≤ ·) V)
  rw [popAll_eq_reverse, harr]

/-! ## Affine transforms (`Transform2DF32` in main.rs)

The matrix is stored in the lane order `[m11, m12, m21, m22]` (source comment:
row-major). `transform_point` and `post_mul` below are the scalar decodings of
the SSE shuffles in the source: `transform_point` computes
`(x*m11 + y*m21 + m31, x*m12 + y*m22 + m32)`; `post_mul` forms the four sums
`lhs + rhs` with `lhs = [a11*b11, a21*b11, a11*b12, a21*b12]` and
`rhs = [a12*b21, a22*b21, a12*b22, a22*b22]`, stored back into the lanes
`[m11, m12, m21, m22]`, and the vector `other.transform_point(self.vector)
+ other.vector`. -/

/-- Modelled from the spec: `pathfinder_geometry::point::Point2DF32` is not
under src/ (only `geometry/src/lib.rs` declaring the module is); the spec
describes it as a pair of 32-bit floats with componentwise addition. -/
structure Point2DF32 where
  x : ℚ
  y : ℚ
deriving DecidableEq

def Point2DF32.add (p q : Point2DF32) : Point2DF32 := ⟨p.x + q.x, p.y + q.y⟩

instance : Add Point2DF32 := ⟨Point2DF32.add⟩

theorem Point2DF32.add_def (p q : Point2DF32) : p + q = ⟨p.x + q.x, p.y + q.y⟩ := rfl

structure Transform2DF32 where
  m11 : ℚ
  m12 : ℚ
  m21 : ℚ
  m22 : ℚ
  vector : Point2DF32
deriving DecidableEq

def Transform2DF32.transform_point (t : Transform2DF32) (p : Point2DF32) : Point2DF32 :=
  ⟨p.x * t.m11 + p.y * t.m21 + t.vector.x,
   p.x * t.m12 + p.y * t.m22 + t.vector.y⟩

def Transform2DF32.post_mul (a b : Transform2DF32) : Transform2DF32 :=
  { m11 := a.m11 * b.m11 + a.m12 * b.m21
    m12 := a.m21 * b.m11 + a.m22 * b.m21
    m21 := a.m11 * b.m12 + a.m12 * b.m22
    m22 := a.m21 * b.m12 + a.m22 * b.m22
    vector := b.transform_point a.vector + b.vector }

def Transform2DF32.pre_mul (a b : Transform2DF32) : Transform2DF32 :=
  b.post_mul a

/-- C4 counterexample: `post_mul` is not affine composition. With A the
identity and B a pure unit translation, transforming the origin by
`A.post_mul(B)` gives (2, 0) while transforming by A then B gives (1, 0)
(B's translation is added twice); and with A the pure lane-m21 matrix and B
the identity, `A.post_mul(B)` transforms (0, 1) to (0, 0) instead of (1, 0)
(the produced matrix is the transpose of the composition product). -/
theorem post_mul_not_composition :
    ((Transform2DF32.mk 1 0 0 1 ⟨0, 0⟩).post_mul (Transform2DF32.mk 1 0 0 1 ⟨1, 0⟩)).transform_point ⟨0, 0⟩ ≠
      (Transform2DF32.mk 1 0 0 1 ⟨1, 0⟩).transform_point
        ((Transform2DF32.mk 1 0 0 1 ⟨0, 0⟩).transform_point ⟨0, 0⟩) ∧
    ((Transform2DF32.mk 0 0 1 0 ⟨0, 0⟩).post_mul (Transform2DF32.mk 1 0 0 1 ⟨0, 0⟩)).transform_point ⟨0, 1⟩ ≠
      (Transform2DF32.mk 1 0 0 1 ⟨0, 0⟩).transform_point
        ((Transform2DF32.mk 0 0 1 0 ⟨0, 0⟩).transform_point ⟨0, 1⟩) := by
  constructor <;>
    · simp only [Transform2DF32.post_mul, Transform2DF32.transform_point, Point2DF32.add_def,
        ne_eq, Point2DF32.mk.injEq]
      norm_num

/-- C4 (amended): transforming a point by `A.post_mul(B)` equals transforming
it by A and then by B, plus an extra copy of B's translation vector, plus the
skew term d * (p.y, -p.x) with d = (a11*b12 + a12*b22) - (a21*b11 + a22*b21)
(the asymmetry of the produced matrix, which is the transpose of the standard
composition product). The claimed equivalence holds exactly on inputs where
d = 0 and B.translate = 0. -/
theorem post_mul_composition_characterization (a b : Transform2DF32) (p : Point2DF32) :
    (a.post_mul b).transform_point p =
      b.transform_point (a.transform_point p) + b.vector +
        ⟨((a.m11 * b.m12 + a.m12 * b.m22) - (a.m21 * b.m11 + a.m22 * b.m21)) * p.y,
         -(((a.m11 * b.m12 + a.m12 * b.m22) - (a.m21 * b.m11 + a.m22 * b.m21)) * p.x)⟩ := by
  simp only [Transform2DF32.post_mul, Transform2DF32.transform_point, Point2DF32.add_def]
  rw [Point2DF32.mk.injEq]
  constructor <;> ring

/-! ## List indexing helpers -/

theorem getD_set_self {α : Type _} (l : List α) (i : ℕ) (v d : α) (h : i < l.length) :
    (l.set i v).getD i d = v := by
  induction l generalizing i with
  | nil => simp at h
  | cons x xs ih =>
      cases i with
      | zero => simp
      | succ j => simpa using ih j (by simpa using h)

theorem getD_set_ne {α : Type _} (l : List α) (i j : ℕ) (v d : α) (hij : i ≠ j) :
    (l.set i v).getD j d = l.getD j d := by
  induction l generalizing i j with
  | nil => simp
  | cons x xs ih =>
      cases i with
      | zero => cases j with
        | zero => exact absurd rfl hij
        | succ k => simp
      | succ i' => cases j with
        | zero => simp
        | succ k => simpa using ih i' k (fun h => hij (by rw [h]))

theorem getD_replicate {α : Type _} (n i : ℕ) (x : α) :
    (List.replicate n x).getD i x = x := by
  rcases Nat.lt_or_ge i n with h | h
  · rw [List.getD_eq_getElem _ _ (by simpa using h)]
    simp
  · rw [List.getD_eq_default _ _ (by simpa using h)]

/-! ## Shared tile-rect geometry

`round_rect_out_to_tile_bounds` produces a `Rect<i16>` with non-negative size;
it is modelled as an integer origin with natural-number dimensions. -/

structure TileRect where
  originX : ℤ
  originY : ℤ
  width : ℕ
  height : ℕ
deriving DecidableEq

/-- `scene_tile_index(tile_x, tile_y, tile_rect)` in main.rs:
`(tile_y - origin.y) as u32 * width as u32 + (tile_x - origin.x) as u32`.
The `toNat` coincides with the `as u32` casts whenever the tile lies inside
the rect (the situation in every claim below). -/
def sceneTileIndex (r : TileRect) (tx ty : ℤ) : ℕ :=
  (ty - r.originY).toNat * r.width + (tx - r.originX).toNat

/-! ## ZBuffer (`ZBuffer` in main.rs)

The buffer is a vector of `AtomicUsize`; sequentially, the CAS loop of
`update` reduces to compare-then-store. `update` takes `object_index: u16` and
computes `(object_index + 1) as usize`: the `+ 1` is performed in `u16` and
wraps, hence the explicit `% 65536`. `test` takes `object_index: u32` and
computes `object_index as usize + 1` without wrapping. -/

structure ZBuffer where
  buffer : List ℕ
  tileRect : TileRect

def ZBuffer.new (r : TileRect) : ZBuffer :=
  ⟨List.replicate (r.width * r.height) 0, r⟩

def ZBuffer.test (zb : ZBuffer) (sceneTileIdx : ℕ) (objectIndex : ℕ) : Bool :=
  decide (zb.buffer.getD sceneTileIdx 0 < objectIndex + 1)

def ZBuffer.update (zb : ZBuffer) (tx ty : ℤ) (objectIndex : ℕ) : ZBuffer :=
  let i := sceneTileIndex zb.tileRect tx ty
  let newDepth := (objectIndex + 1) % 65536
  if zb.buffer.getD i 0 < newDepth then ⟨zb.buffer.set i newDepth, zb.tileRect⟩ else zb

def ZBuffer.applyUpdates (zb : ZBuffer) (us : List (ℤ × ℤ × ℕ)) : ZBuffer :=
  us.foldl (fun z u => z.update u.1 u.2.1 u.2.2) zb

theorem update_tileRect (zb : ZBuffer) (tx ty : ℤ) (oi : ℕ) :
    (zb.update tx ty oi).tileRect = zb.tileRect := by
  rw [ZBuffer.update]
  split <;> rfl

theorem update_length (zb : ZBuffer) (tx ty : ℤ) (oi : ℕ) :
    (zb.update tx ty oi).buffer.length = zb.buffer.length := by
  rw [ZBuffer.update]
  split <;> simp

theorem update_getD (zb : ZBuffer) (tx ty : ℤ) (oi j : ℕ)
    (hwrap : oi + 1 < 65536)
    (hidx : sceneTileIndex zb.tileRect tx ty < zb.buffer.length) :
    (zb.update tx ty oi).buffer.getD j 0 =
      if sceneTileIndex zb.tileRect tx ty = j then
        max (zb.buffer.getD j 0) (oi + 1)
      else zb.buffer.getD j 0 := by
  have hmod : (oi + 1) % 65536 = oi + 1 := Nat.mod_eq_of_lt hwrap
  rw [ZBuffer.update]
  simp only [hmod]
  by_cases hj : sceneTileIndex zb.tileRect tx ty = j
  · subst hj
    split
    · rw [if_pos rfl, getD_set_self _ _ _ _ hidx]
      omega
    · rw [if_pos rfl]
      omega
  · rw [if_neg hj]
    split
    · exact getD_set_ne _ _ _ _ _ hj
    · rfl

theorem update_monotone (zb : ZBuffer) (tx ty : ℤ) (oi j : ℕ) :
    zb.buffer.getD j 0 ≤ (zb.update tx ty oi).buffer.getD j 0 := by
  rw [ZBuffer.update]
  split
  · by_cases hj : sceneTileIndex zb.tileRect tx ty = j
    · subst hj
      by_cases hlen : sceneTileIndex zb.tileRect tx ty < zb.buffer.length
      · rw [getD_set_self _ _ _ _ hlen]
        omega
      · rw [List.set_eq_of_length_le (by omega)]
    · rw [getD_set_ne _ _ _ _ _ hj]
  · exact le_refl _

/-- The value the spec predicts for a cell: the maximum of `object_index + 1`
over the updates touching it, `0` if none touch it. -/
def claimedCellValue (r : TileRect) (us : List (ℤ × ℤ × ℕ)) (i : ℕ) : ℕ :=
  ((us.filter fun u => sceneTileIndex r u.1 u.2.1 = i).map fun u => u.2.2 + 1).foldr max 0

theorem claimedCellValue_cons (r : TileRect) (u : ℤ × ℤ × ℕ) (rest : List (ℤ × ℤ × ℕ)) (i : ℕ) :
    claimedCellValue r (u :: rest) i =
      if sceneTileIndex r u.1 u.2.1 = i then
        max (u.2.2 + 1) (claimedCellValue r rest i)
      else claimedCellValue r rest i := by
  by_cases h : sceneTileIndex r u.1 u.2.1 = i
  · simp [claimedCellValue, List.filter_cons, h]
  · simp [claimedCellValue, List.filter_cons, h]

theorem applyUpdates_getD (us : List (ℤ × ℤ × ℕ)) (zb : ZBuffer) (i : ℕ)
    (hwrap : ∀ u ∈ us, u.2.2 + 1 < 65536)
    (hidx : ∀ u ∈ us, sceneTileIndex zb.tileRect u.1 u.2.1 < zb.buffer.length) :
    (zb.applyUpdates us).buffer.getD i 0 =
      max (zb.buffer.getD i 0) (claimedCellValue zb.tileRect us i) := by
  induction us generalizing zb with
  | nil => simp [ZBuffer.applyUpdates, claimedCellValue]
  | cons u rest ih =>
      have hwrap' : ∀ v ∈ rest, v.2.2 + 1 < 65536 := fun v hv => hwrap v (by simp [hv])
      have hu : sceneTileIndex zb.tileRect u.1 u.2.1 < zb.buffer.length :=
        hidx u (by simp)
      have hrect := update_tileRect zb u.1 u.2.1 u.2.2
      have hlen := update_length zb u.1 u.2.1 u.2.2
      have hidx' : ∀ v ∈ rest,
          sceneTileIndex (zb.update u.1 u.2.1 u.2.2).tileRect v.1 v.2.1 <
            (zb.update u.1 u.2.1 u.2.2).buffer.length := by
        intro v hv
        rw [hrect, hlen]
        exact hidx v (by simp [hv])
      have hstep := ih (zb.update u.1 u.2.1 u.2.2) hwrap' hidx'
      have hone := update_getD zb u.1 u.2.1 u.2.2 i (hwrap u (by simp)) hu
      have : (zb.applyUpdates (u :: rest)) = (zb.update u.1 u.2.1 u.2.2).applyUpdates rest := rfl
      rw [this, hstep, hone, hrect, claimedCellValue_cons]
      by_cases hj : sceneTileIndex zb.tileRect u.1 u.2.1 = i
      · rw [if_pos hj, if_pos hj]
        omega
      · rw [if_neg hj, if_neg hj]

/-- C7 counterexample: `ZBuffer::update` computes `(object_index + 1) as usize`
with the `+ 1` in `u16`, which wraps at `object_index = 0xFFFF`: updating a
fresh one-cell buffer with object_index 65535 writes nothing, so the cell
stays 0 instead of the claimed maximum 65535 + 1. -/
theorem z_buffer_update_overflow_counterexample :
    ((ZBuffer.new ⟨0, 0, 1, 1⟩).applyUpdates [(0, 0, 65535)]).buffer.getD 0 0 = 0 ∧
      (0 : ℕ) ≠ 65535 + 1 := by
  constructor
  · rfl
  · decide

/-- C7 (amended): provided no update overflows the `u16` increment
(object_index + 1 < 65536) and every update's tile lies in the buffer,
(i) every cell is monotonically non-decreasing under `update`,
(ii) after a sequence of updates on a fresh `ZBuffer` a cell holds the maximum
of object_index + 1 over the updates touching it (0 if none), and
(iii) `test(scene_tile_index, object_index)` returns true iff the cell's value
is strictly less than object_index + 1. -/
theorem z_buffer_monotone_max_test (r : TileRect) (us : List (ℤ × ℤ × ℕ)) (i : ℕ)
    (zb : ZBuffer) (tx ty : ℤ) (oi j : ℕ)
    (hwrap : ∀ u ∈ us, u.2.2 + 1 < 65536)
    (hidx : ∀ u ∈ us, sceneTileIndex r u.1 u.2.1 < r.width * r.height) :
    zb.buffer.getD j 0 ≤ (zb.update tx ty oi).buffer.getD j 0 ∧
    ((ZBuffer.new r).applyUpdates us).buffer.getD i 0 = claimedCellValue r us i ∧
    (zb.test j oi = true ↔ zb.buffer.getD j 0 < oi + 1) := by
  refine ⟨update_monotone zb tx ty oi j, ?_, ?_⟩
  · have hidx' : ∀ u ∈ us,
        sceneTileIndex (ZBuffer.new r).tileRect u.1 u.2.1 < (ZBuffer.new r).buffer.length := by
      intro u hu
      simpa [ZBuffer.new] using hidx u hu
    have h := applyUpdates_getD us (ZBuffer.new r) i hwrap hidx'
    have hzero : (ZBuffer.new r).buffer.getD i 0 = 0 := getD_replicate _ _ _
    rw [h, hzero]
    simp [ZBuffer.new]
  · simp [ZBuffer.test]

/-- C7 witness: the amended theorem applied to a one-cell buffer receiving a
single update with object index 3. -/
theorem z_buffer_monotone_max_test_witness :
    (ZBuffer.new ⟨0, 0, 1, 1⟩).buffer.getD 0 0 ≤
        ((ZBuffer.new ⟨0, 0, 1, 1⟩).update 0 0 3).buffer.getD 0 0 ∧
      ((ZBuffer.new ⟨0, 0, 1, 1⟩).applyUpdates [(0, 0, 3)]).buffer.getD 0 0 =
        claimedCellValue ⟨0, 0, 1, 1⟩ [(0, 0, 3)] 0 ∧
      ((ZBuffer.new ⟨0, 0, 1, 1⟩).test 0 3 = true ↔
        (ZBuffer.new ⟨0, 0, 1, 1⟩).buffer.getD 0 0 < 3 + 1) :=
  z_buffer_monotone_max_test ⟨0, 0, 1, 1⟩ [(0, 0, 3)] 0 (ZBuffer.new ⟨0, 0, 1, 1⟩) 0 0 3 0
    (by decide) (by decide)

/-! ## BuiltObject (`BuiltObject` in main.rs)

Tile size is 16 × 16. `add_fill` is the scalar decoding of the SSE path:
`cvtps_epi32(mul_ps(segment, 256))` (round to nearest, ties to even), subtract
the duplicated tile origin, `min_epi32` with 0x0fff (the `max_epi32` with zero
is commented out in the source), then `shuffle_epi8` extracts byte 0 of each
lane into the subpx word and byte 1 of lanes (from.x, to.x, from.y, to.y)
into the px word, and `px = (w | (w >> 12)) as u16`. -/

def TILE_WIDTH : ℤ := 16
def TILE_HEIGHT : ℤ := 16

/-- Modelled from the spec: `pathfinder_geometry::line_segment::LineSegmentF32`
is not under src/ (only the `geometry/src/lib.rs` module declaration is); the
spec describes it as the ordered pair (from, to) of points, stored in the lane
order (from.x, from.y, to.x, to.y). -/
structure LineSegmentF32 where
  fromX : ℚ
  fromY : ℚ
  toX : ℚ
  toY : ℚ
deriving DecidableEq

/-- Modelled from the spec: `LineSegmentF32::reversed` swaps the two
endpoints. -/
def LineSegmentF32.reversed (s : LineSegmentF32) : LineSegmentF32 :=
  ⟨s.toX, s.toY, s.fromX, s.fromY⟩

/-- `cvtps_epi32`: round to nearest integer, ties to even. -/
def rne (q : ℚ) : ℤ :=
  let f := ⌊q⌋
  let r := q - f
  if r < 1 / 2 then f
  else if 1 / 2 < r then f + 1
  else if 2 ∣ f then f else f + 1

/-- The unsigned 32-bit view of an `i32` lane (two's complement). -/
def u32view (v : ℤ) : ℕ := (v.emod 4294967296).toNat

def byte0 (v : ℤ) : ℕ := u32view v % 256

def byte1 (v : ℤ) : ℕ := u32view v / 256 % 256

structure FillObjectPrimitive where
  px : ℕ
  subpx : ℕ
  tile_x : ℤ
  tile_y : ℤ
deriving DecidableEq

structure TileObjectPrimitive where
  tile_x : ℤ
  tile_y : ℤ
  backdrop : ℤ
deriving DecidableEq

structure BuiltObject where
  tileRect : TileRect
  tiles : List TileObjectPrimitive
  fills : List FillObjectPrimitive
  solidTiles : List Bool
  shader : ℕ

/-- `BuiltObject::new`: tiles pushed row-major (y outer, x inner), every
solid-tile bit initially set. -/
def BuiltObject.new (r : TileRect) (shader : ℕ) : BuiltObject where
  tileRect := r
  tiles :=
    (List.range r.height).flatMap fun (j : ℕ) =>
      (List.range r.width).map fun (i : ℕ) =>
        ⟨r.originX + (i : ℤ), r.originY + (j : ℤ), 0⟩
  fills := []
  solidTiles := List.replicate (r.width * r.height) true
  shader := shader

/-- `tile_coords_to_index`: `(tile_y - origin.y) as u32 * width + (tile_x -
origin.x) as u32`; the result is used with `.toNat`, which agrees with the
`u32` casts for in-rect tiles. -/
def BuiltObject.tile_coords_to_index (o : BuiltObject) (tileX tileY : ℤ) : ℤ :=
  (tileY - o.tileRect.originY) * o.tileRect.width + (tileX - o.tileRect.originX)

/-- The `FillObjectPrimitive` computed by `BuiltObject::add_fill`. -/
def quantizedFill (seg : LineSegmentF32) (tileX tileY : ℤ) : FillObjectPrimitive :=
  let ox := tileX * (TILE_WIDTH * 256)
  let oy := tileY * (TILE_HEIGHT * 256)
  let vfx := min (rne (256 * seg.fromX) - ox) 4095
  let vfy := min (rne (256 * seg.fromY) - oy) 4095
  let vtx := min (rne (256 * seg.toX) - ox) 4095
  let vty := min (rne (256 * seg.toY) - oy) 4095
  let subpx := byte0 vfx + 256 * byte0 vfy + 65536 * byte0 vtx + 16777216 * byte0 vty
  let pxw := byte1 vfx + 256 * byte1 vtx + 65536 * byte1 vfy + 16777216 * byte1 vty
  let px := (pxw ||| pxw / 4096) % 65536
  ⟨px, subpx, tileX, tileY⟩

def BuiltObject.add_fill (o : BuiltObject) (seg : LineSegmentF32) (tileX tileY : ℤ) :
    BuiltObject :=
  { o with
    fills := o.fills ++ [quantizedFill seg tileX tileY]
    solidTiles := o.solidTiles.set (o.tile_coords_to_index tileX tileY).toNat false }

/-- The `while winding != 0` loop of `add_active_fill` performs exactly
`|winding|` iterations (each one increments a negative winding or decrements a
positive one), calling `add_fill` with the same segment every time. -/
def addFillTimes (seg : LineSegmentF32) (tileX tileY : ℤ) : ℕ → BuiltObject → BuiltObject
  | 0, o => o
  | n + 1, o => addFillTimes seg tileX tileY n (o.add_fill seg tileX tileY)

def BuiltObject.add_active_fill (o : BuiltObject) (left right : ℚ) (winding : ℤ)
    (tileX tileY : ℤ) : BuiltObject :=
  let tileOriginY : ℚ := ((tileY * TILE_HEIGHT : ℤ) : ℚ)
  let seg :=
    if winding < 0 then LineSegmentF32.mk left tileOriginY right tileOriginY
    else LineSegmentF32.mk right tileOriginY left tileOriginY
  addFillTimes seg tileX tileY winding.natAbs o

/-- `get_tile_mut(tile_x, tile_y)` hands out a mutable reference to the tile at
the row-major index; the tiler writes the tile's `backdrop` through it. -/
def BuiltObject.write_backdrop (o : BuiltObject) (tileX tileY : ℤ) (b : ℤ) : BuiltObject :=
  let ti := (o.tile_coords_to_index tileX tileY).toNat
  match o.tiles[ti]? with
  | some t => { o with tiles := o.tiles.set ti ⟨t.tile_x, t.tile_y, b⟩ }
  | none => o

theorem addFillTimes_fills (seg : LineSegmentF32) (tileX tileY : ℤ) (n : ℕ) (o : BuiltObject) :
    (addFillTimes seg tileX tileY n o).fills =
      o.fills ++ List.replicate n (quantizedFill seg tileX tileY) := by
  induction n generalizing o with
  | zero => simp [addFillTimes]
  | succ m ih =>
      rw [addFillTimes, ih]
      simp [BuiltObject.add_fill, List.replicate_succ]

/-- C6: `add_active_fill(left, right, winding, tile_x, tile_y)` appends exactly
|winding| fills (none when winding = 0), each the quantization of the
horizontal segment at y = tile_y · TILE_HEIGHT, oriented left→right when
winding < 0 and right→left when winding > 0. -/
theorem add_active_fill_emits_winding_fills (o : BuiltObject) (left right : ℚ)
    (winding tileX tileY : ℤ) :
    (o.add_active_fill left right winding tileX tileY).fills =
      o.fills ++ List.replicate winding.natAbs
        (quantizedFill
          (if winding < 0 then
            LineSegmentF32.mk left ((tileY * TILE_HEIGHT : ℤ) : ℚ) right ((tileY * TILE_HEIGHT : ℤ) : ℚ)
          else
            LineSegmentF32.mk right ((tileY * TILE_HEIGHT : ℤ) : ℚ) left ((tileY * TILE_HEIGHT : ℤ) : ℚ))
          tileX tileY) := by
  rw [BuiltObject.add_active_fill]
  split <;> rw [addFillTimes_fills]

/-- The clamp described by the spec: values above 0x0FFF become 0x0FFF, all
others (negative values included) pass through unchanged. -/
def clampHi (q : ℤ) : ℤ := if 4095 < q then 4095 else q

theorem min_eq_clampHi (q : ℤ) : min q 4095 = clampHi q := by
  rw [clampHi]
  split <;> omega

theorem byte0_eq (v : ℤ) : byte0 v = (v.emod 256).toNat := by
  have h : v.emod 4294967296 % 256 = v.emod 256 := Int.emod_emod_of_dvd v (by norm_num)
  have hn : 0 ≤ v.emod 4294967296 := Int.emod_nonneg v (by norm_num)
  rw [byte0, u32view]
  omega

theorem byte1_eq (v : ℤ) : byte1 v = ((v.emod 65536) / 256).toNat := by
  have h : v.emod 4294967296 % 65536 = v.emod 65536 := Int.emod_emod_of_dvd v (by norm_num)
  have hn : 0 ≤ v.emod 4294967296 := Int.emod_nonneg v (by norm_num)
  rw [byte1, u32view]
  omega

theorem byte1_of_inrange (v : ℤ) (h0 : 0 ≤ v) (h1 : v ≤ 4095) :
    byte1 v = v.toNat / 256 ∧ byte1 v < 16 := by
  have h : v.emod 4294967296 = v := Int.emod_eq_of_lt h0 (by omega)
  rw [byte1, u32view]
  omega

theorem lor_mod_two_pow (x y k : ℕ) : (x ||| y) % 2 ^ k = x % 2 ^ k ||| y % 2 ^ k := by
  apply Nat.eq_of_testBit_eq
  intro i
  simp [Nat.testBit_mod_two_pow, Nat.testBit_or, Bool.and_or_distrib_left]

theorem nibble_or_add (a b c e : ℕ) (ha : a < 16) (hb : b < 16) (hc : c < 16) (_he : e < 16) :
    (a + 256 * b) ||| (16 * c + 4096 * e) = a + 16 * c + 256 * b + 4096 * e := by
  have hba : 2 ^ 8 * b + a = 2 ^ 8 * b ||| a := Nat.mul_add_lt_is_or (by omega) b
  have hec : 2 ^ 12 * e + 2 ^ 4 * c = 2 ^ 12 * e ||| 2 ^ 4 * c :=
    Nat.mul_add_lt_is_or (by omega) e
  have hca : 2 ^ 4 * c + a = 2 ^ 4 * c ||| a := Nat.mul_add_lt_is_or (by omega) c
  have hbca : 2 ^ 8 * b + (2 ^ 4 * c + a) = 2 ^ 8 * b ||| (2 ^ 4 * c + a) :=
    Nat.mul_add_lt_is_or (by omega) b
  have hebca : 2 ^ 12 * e + (2 ^ 8 * b + (2 ^ 4 * c + a)) =
      2 ^ 12 * e ||| (2 ^ 8 * b + (2 ^ 4 * c + a)) :=
    Nat.mul_add_lt_is_or (by omega) e
  have e1 : a + 256 * b = 2 ^ 8 * b + a := by ring
  have e2 : 16 * c + 4096 * e = 2 ^ 12 * e + 2 ^ 4 * c := by ring
  rw [e1, e2, hba, hec]
  have hassemble : (2 ^ 8 * b ||| a) ||| (2 ^ 12 * e ||| 2 ^ 4 * c) =
      2 ^ 12 * e ||| (2 ^ 8 * b ||| (2 ^ 4 * c ||| a)) := by
    rw [Nat.lor_comm (2 ^ 8 * b) a, Nat.lor_comm (2 ^ 12 * e) (2 ^ 4 * c),
      ← Nat.lor_assoc, Nat.lor_assoc a]
    rw [Nat.lor_comm (a ||| (2 ^ 8 * b ||| 2 ^ 4 * c)) (2 ^ 12 * e)]
    rw [Nat.lor_comm a (2 ^ 8 * b ||| 2 ^ 4 * c), Nat.lor_assoc, Nat.lor_comm (2 ^ 4 * c) a]
  rw [hassemble, ← hca, ← hbca, ← hebca]
  ring

theorem px_pack (a b c e : ℕ) (ha : a < 16) (hb : b < 16) (hc : c < 16) (he : e < 16) :
    ((a + 256 * b + 65536 * c + 16777216 * e) |||
        (a + 256 * b + 65536 * c + 16777216 * e) / 4096) % 65536 =
      a + 16 * c + 256 * b + 4096 * e := by
  have hdiv : (a + 256 * b + 65536 * c + 16777216 * e) / 4096 = 16 * c + 4096 * e := by omega
  have hsplit : ((a + 256 * b + 65536 * c + 16777216 * e) ||| (16 * c + 4096 * e)) % 65536 =
      (a + 256 * b + 65536 * c + 16777216 * e) % 65536 ||| (16 * c + 4096 * e) % 65536 := by
    have h := lor_mod_two_pow (a + 256 * b + 65536 * c + 16777216 * e) (16 * c + 4096 * e) 16
    norm_num at h
    exact h
  have hm1 : (a + 256 * b + 65536 * c + 16777216 * e) % 65536 = a + 256 * b := by omega
  have hm2 : (16 * c + 4096 * e) % 65536 = 16 * c + 4096 * e := by omega
  rw [hdiv, hsplit, hm1, hm2, nibble_or_add a b c e ha hb hc he]

theorem clampHi_nonneg (q : ℤ) (h : 0 ≤ q) : 0 ≤ clampHi q := by
  rw [clampHi]
  split <;> omega

theorem clampHi_le (q : ℤ) : clampHi q ≤ 4095 := by
  rw [clampHi]
  split <;> omega

/-- C5: `add_fill` scales each endpoint coordinate by 256, rounds to integer,
subtracts the tile origin, and clamps only at the upper bound 0x0FFF: values
above 0x0FFF become 0x0FFF while every value ≤ 0x0FFF — negative values
included — passes through unchanged into the packed words. The subpx word
carries the low byte (`emod 256`, i.e. the two's-complement byte for negative
values) of each clamped coordinate, and when all four quantized coordinates
are non-negative the px word packs their high nibbles in the order
(from.x, from.y, to.x, to.y). -/
theorem add_fill_clamps_upper_only (o : BuiltObject) (fx fy gx gy : ℚ) (tileX tileY : ℤ) :
    (o.add_fill ⟨fx, fy, gx, gy⟩ tileX tileY).fills =
        o.fills ++ [quantizedFill ⟨fx, fy, gx, gy⟩ tileX tileY] ∧
    (quantizedFill ⟨fx, fy, gx, gy⟩ tileX tileY).subpx =
        ((clampHi (rne (256 * fx) - tileX * (TILE_WIDTH * 256))).emod 256).toNat +
          256 * ((clampHi (rne (256 * fy) - tileY * (TILE_HEIGHT * 256))).emod 256).toNat +
          65536 * ((clampHi (rne (256 * gx) - tileX * (TILE_WIDTH * 256))).emod 256).toNat +
          16777216 * ((clampHi (rne (256 * gy) - tileY * (TILE_HEIGHT * 256))).emod 256).toNat ∧
    (0 ≤ rne (256 * fx) - tileX * (TILE_WIDTH * 256) →
     0 ≤ rne (256 * fy) - tileY * (TILE_HEIGHT * 256) →
     0 ≤ rne (256 * gx) - tileX * (TILE_WIDTH * 256) →
     0 ≤ rne (256 * gy) - tileY * (TILE_HEIGHT * 256) →
      (quantizedFill ⟨fx, fy, gx, gy⟩ tileX tileY).px =
        (clampHi (rne (256 * fx) - tileX * (TILE_WIDTH * 256))).toNat / 256 +
          16 * ((clampHi (rne (256 * fy) - tileY * (TILE_HEIGHT * 256))).toNat / 256) +
          256 * ((clampHi (rne (256 * gx) - tileX * (TILE_WIDTH * 256))).toNat / 256) +
          4096 * ((clampHi (rne (256 * gy) - tileY * (TILE_HEIGHT * 256))).toNat / 256)) := by
  refine ⟨rfl, ?_, ?_⟩
  · simp only [quantizedFill, min_eq_clampHi, byte0_eq]
  · intro h1 h2 h3 h4
    have c1 := byte1_of_inrange (clampHi (rne (256 * fx) - tileX * (TILE_WIDTH * 256)))
      (clampHi_nonneg _ h1) (clampHi_le _)
    have c2 := byte1_of_inrange (clampHi (rne (256 * fy) - tileY * (TILE_HEIGHT * 256)))
      (clampHi_nonneg _ h2) (clampHi_le _)
    have c3 := byte1_of_inrange (clampHi (rne (256 * gx) - tileX * (TILE_WIDTH * 256)))
      (clampHi_nonneg _ h3) (clampHi_le _)
    have c4 := byte1_of_inrange (clampHi (rne (256 * gy) - tileY * (TILE_HEIGHT * 256)))
      (clampHi_nonneg _ h4) (clampHi_le _)
    simp only [quantizedFill, min_eq_clampHi]
    rw [c1.1, c2.1, c3.1, c4.1]
    exact px_pack _ _ _ _ (c1.1 ▸ c1.2) (c3.1 ▸ c3.2) (c2.1 ▸ c2.2) (c4.1 ▸ c4.2)

/-- C5 witness: the theorem applied at the zero segment in tile (0, 0), with
the non-negativity side conditions discharged. -/
theorem add_fill_clamps_upper_only_witness :
    ((BuiltObject.new ⟨0, 0, 1, 1⟩ 0).add_fill ⟨0, 0, 0, 0⟩ 0 0).fills =
        (BuiltObject.new ⟨0, 0, 1, 1⟩ 0).fills ++ [quantizedFill ⟨0, 0, 0, 0⟩ 0 0] ∧
    (quantizedFill ⟨0, 0, 0, 0⟩ 0 0).subpx =
        ((clampHi (rne (256 * 0) - 0 * (TILE_WIDTH * 256))).emod 256).toNat +
          256 * ((clampHi (rne (256 * 0) - 0 * (TILE_HEIGHT * 256))).emod 256).toNat +
          65536 * ((clampHi (rne (256 * 0) - 0 * (TILE_WIDTH * 256))).emod 256).toNat +
          16777216 * ((clampHi (rne (256 * 0) - 0 * (TILE_HEIGHT * 256))).emod 256).toNat ∧
    (quantizedFill ⟨0, 0, 0, 0⟩ 0 0).px =
        (clampHi (rne (256 * 0) - 0 * (TILE_WIDTH * 256))).toNat / 256 +
          16 * ((clampHi (rne (256 * 0) - 0 * (TILE_HEIGHT * 256))).toNat / 256) +
          256 * ((clampHi (rne (256 * 0) - 0 * (TILE_WIDTH * 256))).toNat / 256) +
          4096 * ((clampHi (rne (256 * 0) - 0 * (TILE_HEIGHT * 256))).toNat / 256) := by
  have hz : (0 : ℤ) ≤ rne (256 * (0 : ℚ)) - 0 * (TILE_WIDTH * 256) := by
    norm_num [rne]
  have hz' : (0 : ℤ) ≤ rne (256 * (0 : ℚ)) - 0 * (TILE_HEIGHT * 256) := by
    norm_num [rne]
  have h := add_fill_clamps_upper_only (BuiltObject.new ⟨0, 0, 1, 1⟩ 0) 0 0 0 0 0 0
  exact ⟨h.1, h.2.1, h.2.2 hz hz' hz hz'⟩

/-! ## BuiltObject invariants (C8) -/

def inRect (r : TileRect) (tx ty : ℤ) : Prop :=
  r.originX ≤ tx ∧ tx < r.originX + r.width ∧ r.originY ≤ ty ∧ ty < r.originY + r.height

instance (r : TileRect) (tx ty : ℤ) : Decidable (inRect r tx ty) := by
  unfold inRect
  infer_instance

/-- The mutating operations a `BuiltObject` is subjected to after
construction: `add_fill`, `add_active_fill`, and a backdrop write through
`get_tile_mut`. -/
inductive BuiltObjectOp where
  | fillOp (seg : LineSegmentF32) (tileX tileY : ℤ)
  | activeFillOp (left right : ℚ) (winding tileX tileY : ℤ)
  | backdropOp (tileX tileY : ℤ) (b : ℤ)

def BuiltObjectOp.opX : BuiltObjectOp → ℤ
  | .fillOp _ tx _ => tx
  | .activeFillOp _ _ _ tx _ => tx
  | .backdropOp tx _ _ => tx

def BuiltObjectOp.opY : BuiltObjectOp → ℤ
  | .fillOp _ _ ty => ty
  | .activeFillOp _ _ _ _ ty => ty
  | .backdropOp _ ty _ => ty

def applyOp (o : BuiltObject) : BuiltObjectOp → BuiltObject
  | .fillOp seg tx ty => o.add_fill seg tx ty
  | .activeFillOp l rr w tx ty => o.add_active_fill l rr w tx ty
  | .backdropOp tx ty b => o.write_backdrop tx ty b

def applyOps (o : BuiltObject) (ops : List BuiltObjectOp) : BuiltObject :=
  ops.foldl applyOp o

/-- The inductive invariant: correct tile rect, tiles and solid-bit vector of
the full rect size, and every recorded fill lies in the rect with its
solid-tile bit cleared. -/
def GoodObject (r : TileRect) (o : BuiltObject) : Prop :=
  o.tileRect = r ∧
  o.tiles.length = r.width * r.height ∧
  o.solidTiles.length = r.width * r.height ∧
  ∀ f ∈ o.fills, inRect r f.tile_x f.tile_y ∧
    o.solidTiles.getD (o.tile_coords_to_index f.tile_x f.tile_y).toNat true = false

theorem rect_index_lt (r : TileRect) (tx ty : ℤ) (h : inRect r tx ty) :
    ((ty - r.originY) * (r.width : ℤ) + (tx - r.originX)).toNat < r.width * r.height := by
  obtain ⟨h1, h2, h3, h4⟩ := h
  have e1 : ty - r.originY = (((ty - r.originY).toNat : ℕ) : ℤ) :=
    (Int.toNat_of_nonneg (by omega)).symm
  have e2 : tx - r.originX = (((tx - r.originX).toNat : ℕ) : ℤ) :=
    (Int.toNat_of_nonneg (by omega)).symm
  rw [e1, e2]
  rw [show (((ty - r.originY).toNat : ℤ) * (r.width : ℤ) + ((tx - r.originX).toNat : ℤ)) =
      (((ty - r.originY).toNat * r.width + (tx - r.originX).toNat : ℕ) : ℤ) by push_cast; ring]
  rw [Int.toNat_natCast]
  have ha : (ty - r.originY).toNat < r.height := by omega
  have hb : (tx - r.originX).toNat < r.width := by omega
  have hstep : (ty - r.originY).toNat * r.width + (tx - r.originX).toNat <
      ((ty - r.originY).toNat + 1) * r.width := by
    rw [Nat.succ_mul]
    omega
  calc (ty - r.originY).toNat * r.width + (tx - r.originX).toNat
      < ((ty - r.originY).toNat + 1) * r.width := hstep
    _ ≤ r.height * r.width := Nat.mul_le_mul_right _ (by omega)
    _ = r.width * r.height := Nat.mul_comm _ _

theorem coords_index_lt (r : TileRect) (o : BuiltObject) (tx ty : ℤ)
    (hrect : o.tileRect = r) (h : inRect r tx ty) :
    (o.tile_coords_to_index tx ty).toNat < r.width * r.height := by
  rw [BuiltObject.tile_coords_to_index, hrect]
  exact rect_index_lt r tx ty h

theorem good_add_fill (r : TileRect) (o : BuiltObject) (seg : LineSegmentF32) (tx ty : ℤ)
    (ho : GoodObject r o) (h : inRect r tx ty) : GoodObject r (o.add_fill seg tx ty) := by
  obtain ⟨hrect, htl, hsl, hf⟩ := ho
  have hidx : (o.tile_coords_to_index tx ty).toNat < o.solidTiles.length := by
    rw [hsl]
    exact coords_index_lt r o tx ty hrect h
  refine ⟨hrect, htl, by simp [BuiltObject.add_fill, hsl], ?_⟩
  intro f hfmem
  rcases List.mem_append.mp hfmem with hold | hnew
  · refine ⟨(hf f hold).1, ?_⟩
    have hred : (o.add_fill seg tx ty).solidTiles.getD
        ((o.add_fill seg tx ty).tile_coords_to_index f.tile_x f.tile_y).toNat true =
        (o.solidTiles.set (o.tile_coords_to_index tx ty).toNat false).getD
          (o.tile_coords_to_index f.tile_x f.tile_y).toNat true := rfl
    rw [hred]
    by_cases hsame : (o.tile_coords_to_index tx ty).toNat =
        (o.tile_coords_to_index f.tile_x f.tile_y).toNat
    · rw [← hsame, getD_set_self _ _ _ _ hidx]
    · rw [getD_set_ne _ _ _ _ _ hsame]
      exact (hf f hold).2
  · have hfe : f = quantizedFill seg tx ty := by simpa using hnew
    subst hfe
    refine ⟨h, ?_⟩
    have hred : (o.add_fill seg tx ty).solidTiles.getD
        ((o.add_fill seg tx ty).tile_coords_to_index (quantizedFill seg tx ty).tile_x
          (quantizedFill seg tx ty).tile_y).toNat true =
        (o.solidTiles.set (o.tile_coords_to_index tx ty).toNat false).getD
          (o.tile_coords_to_index tx ty).toNat true := rfl
    rw [hred, getD_set_self _ _ _ _ hidx]

theorem good_addFillTimes (r : TileRect) (seg : LineSegmentF32) (tx ty : ℤ) (n : ℕ)
    (o : BuiltObject) (ho : GoodObject r o) (h : inRect r tx ty) :
    GoodObject r (addFillTimes seg tx ty n o) := by
  induction n generalizing o with
  | zero => exact ho
  | succ m ih => exact ih (o.add_fill seg tx ty) (good_add_fill r o seg tx ty ho h)

theorem good_write_backdrop (r : TileRect) (o : BuiltObject) (tx ty b : ℤ)
    (ho : GoodObject r o) : GoodObject r (o.write_backdrop tx ty b) := by
  obtain ⟨hrect, htl, hsl, hf⟩ := ho
  rw [BuiltObject.write_backdrop]
  split
  · exact ⟨hrect, by simpa using htl, hsl, hf⟩
  · exact ⟨hrect, htl, hsl, hf⟩

theorem good_applyOp (r : TileRect) (o : BuiltObject) (op : BuiltObjectOp)
    (ho : GoodObject r o) (h : inRect r op.opX op.opY) : GoodObject r (applyOp o op) := by
  cases op with
  | fillOp seg tx ty => exact good_add_fill r o seg tx ty ho h
  | activeFillOp l rr w tx ty =>
      rw [applyOp, BuiltObject.add_active_fill]
      split <;> exact good_addFillTimes r _ tx ty w.natAbs o ho h
  | backdropOp tx ty b => exact good_write_backdrop r o tx ty b ho

theorem good_applyOps (r : TileRect) (ops : List BuiltObjectOp) (o : BuiltObject)
    (ho : GoodObject r o) (hops : ∀ op ∈ ops, inRect r op.opX op.opY) :
    GoodObject r (applyOps o ops) := by
  induction ops generalizing o with
  | nil => exact ho
  | cons op rest ih =>
      exact ih (applyOp o op) (good_applyOp r o op ho (hops op (by simp)))
        (fun p hp => hops p (by simp [hp]))

theorem length_flatMap_const {β : Type _} (n : ℕ) (f : ℕ → List β) (w : ℕ)
    (hf : ∀ j, (f j).length = w) : ((List.range n).flatMap f).length = n * w := by
  induction n with
  | zero => simp
  | succ m ih =>
      rw [List.range_succ, List.flatMap_append, List.length_append, ih, Nat.succ_mul]
      simp [hf]

theorem good_new (r : TileRect) (shader : ℕ) : GoodObject r (BuiltObject.new r shader) := by
  refine ⟨rfl, ?_, by simp [BuiltObject.new], by simp [BuiltObject.new]⟩
  have h := length_flatMap_const r.height
    (fun (j : ℕ) => (List.range r.width).map fun (i : ℕ) =>
      TileObjectPrimitive.mk (r.originX + (i : ℤ)) (r.originY + (j : ℤ)) 0)
    r.width (fun j => by rw [List.length_map, List.length_range])
  rw [BuiltObject.new]
  simp only at h ⊢
  rw [h]
  exact Nat.mul_comm _ _

/-- C8: for a `BuiltObject` built by `BuiltObject::new` and mutated by any
sequence of in-rect `add_fill` / `add_active_fill` / `get_tile_mut` writes,
the tiles array always has length `tile_rect.width * tile_rect.height`, and
every tile referenced by an entry of `fills` has its solid-tiles bit cleared
(each bit starts at 1 and the first fill added to that tile clears it). -/
theorem built_object_tiles_length_and_solid_bits (r : TileRect) (shader : ℕ)
    (ops : List BuiltObjectOp) (f : FillObjectPrimitive)
    (hops : ∀ op ∈ ops, inRect r op.opX op.opY)
    (hf : f ∈ (applyOps (BuiltObject.new r shader) ops).fills) :
    (applyOps (BuiltObject.new r shader) ops).tiles.length = r.width * r.height ∧
    (applyOps (BuiltObject.new r shader) ops).solidTiles.getD
        ((applyOps (BuiltObject.new r shader) ops).tile_coords_to_index f.tile_x f.tile_y).toNat
        true = false := by
  have hg := good_applyOps r ops (BuiltObject.new r shader) (good_new r shader) hops
  exact ⟨hg.2.1, (hg.2.2.2 f hf).2⟩

/-- C8 witness: one `add_fill` on a one-tile object. -/
theorem built_object_tiles_length_and_solid_bits_witness :
    (applyOps (BuiltObject.new ⟨0, 0, 1, 1⟩ 0) [.fillOp ⟨0, 0, 0, 0⟩ 0 0]).tiles.length = 1 * 1 ∧
    (applyOps (BuiltObject.new ⟨0, 0, 1, 1⟩ 0) [.fillOp ⟨0, 0, 0, 0⟩ 0 0]).solidTiles.getD
        ((applyOps (BuiltObject.new ⟨0, 0, 1, 1⟩ 0) [.fillOp ⟨0, 0, 0, 0⟩ 0 0]).tile_coords_to_index
          (quantizedFill ⟨0, 0, 0, 0⟩ 0 0).tile_x (quantizedFill ⟨0, 0, 0, 0⟩ 0 0).tile_y).toNat
        true = false := by
  have hops : ∀ op ∈ [BuiltObjectOp.fillOp ⟨0, 0, 0, 0⟩ 0 0], inRect ⟨0, 0, 1, 1⟩ op.opX op.opY := by
    intro op hop
    simp only [List.mem_singleton] at hop
    subst hop
    refine ⟨?_, ?_, ?_, ?_⟩ <;> norm_num [BuiltObjectOp.opX, BuiltObjectOp.opY]
  have hf : quantizedFill ⟨0, 0, 0, 0⟩ 0 0 ∈
      (applyOps (BuiltObject.new ⟨0, 0, 1, 1⟩ 0) [.fillOp ⟨0, 0, 0, 0⟩ 0 0]).fills := by
    simp [applyOps, applyOp, BuiltObject.add_fill, BuiltObject.new]
  exact built_object_tiles_length_and_solid_bits ⟨0, 0, 1, 1⟩ 0 _ _ hops hf

/-! ## Segments (`Segment` in main.rs)

`Segment { baseline, ctrl, kind, flags }`; for a Quadratic only `ctrl.from` is
meaningful. `reversed` swaps the baseline always and the control points unless
the kind is Quadratic; `orient(w)` is the identity for `w ≥ 0` and `reversed`
otherwise. -/

inductive SegmentKind where
  | none
  | line
  | quadratic
  | cubic
deriving DecidableEq

structure SegmentFlags where
  firstInSubpath : Bool
  closesSubpath : Bool
deriving DecidableEq

structure Segment where
  baseline : LineSegmentF32
  ctrl : LineSegmentF32
  kind : SegmentKind
  flags : SegmentFlags
deriving DecidableEq

def Segment.reversed (s : Segment) : Segment where
  baseline := s.baseline.reversed
  ctrl := if s.kind = SegmentKind.quadratic then s.ctrl else s.ctrl.reversed
  kind := s.kind
  flags := s.flags

def Segment.orient (s : Segment) (yWinding : ℤ) : Segment :=
  if 0 ≤ yWinding then s else s.reversed

/-- C10: reversing a segment twice (any kind, including Quadratic, whose
`ctrl.to` is left untouched by `reversed`) restores the segment, and hence
orienting twice with the same winding restores it as well. -/
theorem segment_reversed_involutive_orient (s : Segment) (w : ℤ) :
    s.reversed.reversed = s ∧ (s.orient w).orient w = s := by
  have hrev : ∀ t : Segment, t.reversed.reversed = t := by
    intro t
    obtain ⟨⟨a, b, c, d⟩, ⟨e, f, g, h⟩, k, fl⟩ := t
    by_cases hq : k = SegmentKind.quadratic
    · simp [Segment.reversed, hq, LineSegmentF32.reversed]
    · simp [Segment.reversed, hq, LineSegmentF32.reversed]
  refine ⟨hrev s, ?_⟩
  by_cases hw : 0 ≤ w
  · simp [Segment.orient, hw]
  · simp [Segment.orient, hw, hrev]

/-! ## Monotonic conversion (C9)

`MonotonicConversionIter` keeps a two-element buffer (an `ArrayVec` used as a
stack: `push` appends, `pop` removes the most recently pushed element; the
model keeps the top of the stack at the head of the list). `handle_cubic`
splits on the result of `y_extrema`; `y_extrema` itself computes with `f32`
square roots, so the converter is parametrised by it here — the claim
quantifies over what `y_extrema` returns. -/

/-- Degree elevation (`Segment::to_cubic`): `ctrl = ((from + 2*ctrl.from)/3,
(2*ctrl.from + to)/3)`. The source does not change `kind`. -/
def Segment.to_cubic (s : Segment) : Segment :=
  if s.kind = SegmentKind.cubic then s
  else
    { s with ctrl :=
        ⟨(s.baseline.fromX + 2 * s.ctrl.fromX) / 3, (s.baseline.fromY + 2 * s.ctrl.fromY) / 3,
         (2 * s.ctrl.fromX + s.baseline.toX) / 3, (2 * s.ctrl.fromY + s.baseline.toY) / 3⟩ }

/-- De Casteljau split (`CubicSegment::split`): left piece baseline (p0, p0123)
with ctrl (p01, p012); right piece baseline (p0123, p3) with ctrl (p123, p23).
`FIRST_IN_SUBPATH` stays on the left piece, `CLOSES_SUBPATH` on the right. -/
def Segment.split (s : Segment) (t : ℚ) : Segment × Segment :=
  let p0x := s.baseline.fromX
  let p0y := s.baseline.fromY
  let p3x := s.baseline.toX
  let p3y := s.baseline.toY
  let p1x := s.ctrl.fromX
  let p1y := s.ctrl.fromY
  let p2x := s.ctrl.toX
  let p2y := s.ctrl.toY
  let p01x := p0x + t * (p1x - p0x)
  let p01y := p0y + t * (p1y - p0y)
  let p12x := p1x + t * (p2x - p1x)
  let p12y := p1y + t * (p2y - p1y)
  let p23x := p2x + t * (p3x - p2x)
  let p23y := p2y + t * (p3y - p2y)
  let p012x := p01x + t * (p12x - p01x)
  let p012y := p01y + t * (p12y - p01y)
  let p123x := p12x + t * (p23x - p12x)
  let p123y := p12y + t * (p23y - p12y)
  let p0123x := p012x + t * (p123x - p012x)
  let p0123y := p012y + t * (p123y - p012y)
  (⟨⟨p0x, p0y, p0123x, p0123y⟩, ⟨p01x, p01y, p012x, p012y⟩, SegmentKind.cubic,
     ⟨s.flags.firstInSubpath, false⟩⟩,
   ⟨⟨p0123x, p0123y, p3x, p3y⟩, ⟨p123x, p123y, p23x, p23y⟩, SegmentKind.cubic,
     ⟨false, s.flags.closesSubpath⟩⟩)

/-- Bernstein evaluation of the cubic with control polygon
(baseline.from, ctrl.from, ctrl.to, baseline.to). -/
def cubicEval (s : Segment) (t : ℚ) : ℚ × ℚ :=
  ((1 - t) ^ 3 * s.baseline.fromX + 3 * (1 - t) ^ 2 * t * s.ctrl.fromX +
     3 * (1 - t) * t ^ 2 * s.ctrl.toX + t ^ 3 * s.baseline.toX,
   (1 - t) ^ 3 * s.baseline.fromY + 3 * (1 - t) ^ 2 * t * s.ctrl.fromY +
     3 * (1 - t) * t ^ 2 * s.ctrl.toY + t ^ 3 * s.baseline.toY)

theorem split_left_eval (s : Segment) (t u : ℚ) :
    cubicEval (s.split t).1 u = cubicEval s (t * u) := by
  simp only [Segment.split, cubicEval]
  rw [Prod.mk.injEq]
  constructor <;> ring

theorem split_right_eval (s : Segment) (t u : ℚ) :
    cubicEval (s.split t).2 u = cubicEval s (t + u * (1 - t)) := by
  simp only [Segment.split, cubicEval]
  rw [Prod.mk.injEq]
  constructor <;> ring

/-- `MonotonicConversionIter::next` / `handle_cubic`, parametrised by the
embedding `E` of `y_extrema`. State: (remaining input, buffer with the top of
the stack at the head). -/
def monoNext (E : Segment → Option ℚ × Option ℚ) :
    List Segment → List Segment → Option (Segment × List Segment × List Segment)
  | iter, b :: bs => some (b, iter, bs)
  | [], [] => none
  | s :: rest, [] =>
    match s.kind with
    | SegmentKind.none => monoNext E rest []
    | SegmentKind.line => some (s, rest, [])
    | SegmentKind.cubic =>
      match E s with
      | (some t0, some t1) =>
          some (((s.split t1).1.split (t0 / t1)).1, rest,
            [((s.split t1).1.split (t0 / t1)).2, (s.split t1).2])
      | (some t0, Option.none) => some ((s.split t0).1, rest, [(s.split t0).2])
      | (Option.none, some t0) => some ((s.split t0).1, rest, [(s.split t0).2])
      | (Option.none, Option.none) => some (s, rest, [])
    | SegmentKind.quadratic =>
      match E s.to_cubic with
      | (some t0, some t1) =>
          some (((s.to_cubic.split t1).1.split (t0 / t1)).1, rest,
            [((s.to_cubic.split t1).1.split (t0 / t1)).2, (s.to_cubic.split t1).2])
      | (some t0, Option.none) =>
          some ((s.to_cubic.split t0).1, rest, [(s.to_cubic.split t0).2])
      | (Option.none, some t0) =>
          some ((s.to_cubic.split t0).1, rest, [(s.to_cubic.split t0).2])
      | (Option.none, Option.none) => some (s.to_cubic, rest, [])

/-- C9: for a cubic segment whose `y_extrema` embedding returns two parameters
0 < t0 < t1 < 1, the converter splits at t1, splits the left part at t0/t1,
and emits the three pieces in left-to-right parameter order: the piece over
[0, t0], then [t0, t1], then [t1, 1] (witnessed by the evaluation
reparametrisations); with one extremum it emits the two pieces of a single
split in order, and with none it passes the segment through unchanged. -/
theorem monotonic_conversion_emits_pieces_in_order
    (E : Segment → Option ℚ × Option ℚ) (s : Segment) (rest : List Segment)
    (t0 t1 u : ℚ) (hkc : s.kind = SegmentKind.cubic)
    (h0 : 0 < t0) (h01 : t0 < t1) :
    (E s = (some t0, some t1) →
      monoNext E (s :: rest) [] =
        some (((s.split t1).1.split (t0 / t1)).1, rest,
          [((s.split t1).1.split (t0 / t1)).2, (s.split t1).2]) ∧
      monoNext E rest [((s.split t1).1.split (t0 / t1)).2, (s.split t1).2] =
        some (((s.split t1).1.split (t0 / t1)).2, rest, [(s.split t1).2]) ∧
      monoNext E rest [(s.split t1).2] = some ((s.split t1).2, rest, []) ∧
      cubicEval (((s.split t1).1.split (t0 / t1)).1) u = cubicEval s (t0 * u) ∧
      cubicEval (((s.split t1).1.split (t0 / t1)).2) u = cubicEval s (t0 + u * (t1 - t0)) ∧
      cubicEval ((s.split t1).2) u = cubicEval s (t1 + u * (1 - t1))) ∧
    (E s = (some t0, none) →
      monoNext E (s :: rest) [] = some ((s.split t0).1, rest, [(s.split t0).2]) ∧
      monoNext E rest [(s.split t0).2] = some ((s.split t0).2, rest, []) ∧
      cubicEval ((s.split t0).1) u = cubicEval s (t0 * u) ∧
      cubicEval ((s.split t0).2) u = cubicEval s (t0 + u * (1 - t0))) ∧
    (E s = (none, none) → monoNext E (s :: rest) [] = some (s, rest, [])) := by
  have ht1 : t1 ≠ 0 := (ne_of_gt (lt_trans h0 h01))
  refine ⟨?_, ?_, ?_⟩
  · intro hE
    refine ⟨by simp [monoNext, hkc, hE], by simp [monoNext], by simp [monoNext], ?_, ?_, ?_⟩
    · have harg : t1 * (t0 / t1 * u) = t0 * u := by field_simp
      rw [split_left_eval, split_left_eval, harg]
    · have harg : t1 * (t0 / t1 + u * (1 - t0 / t1)) = t0 + u * (t1 - t0) := by
        field_simp
      rw [split_right_eval, split_left_eval, harg]
    · exact split_right_eval s t1 u
  · intro hE
    exact ⟨by simp [monoNext, hkc, hE], by simp [monoNext], split_left_eval s t0 u,
      split_right_eval s t0 u⟩
  · intro hE
    simp [monoNext, hkc, hE]

def sampleExtrema : Segment → Option ℚ × Option ℚ := fun _ => (some (1 / 4), some (1 / 2))

def sampleCubic : Segment :=
  ⟨⟨0, 0, 1, 1⟩, ⟨0, 1, 1, 0⟩, SegmentKind.cubic, ⟨false, false⟩⟩

/-- C9 witness: the two-extrema branch at t0 = 1/4, t1 = 1/2, evaluated at
u = 0. -/
theorem monotonic_conversion_emits_pieces_in_order_witness :
    monoNext sampleExtrema [sampleCubic] [] =
      some (((sampleCubic.split (1 / 2)).1.split (1 / 4 / (1 / 2))).1, [],
        [((sampleCubic.split (1 / 2)).1.split (1 / 4 / (1 / 2))).2,
          (sampleCubic.split (1 / 2)).2]) ∧
    monoNext sampleExtrema []
        [((sampleCubic.split (1 / 2)).1.split (1 / 4 / (1 / 2))).2,
          (sampleCubic.split (1 / 2)).2] =
      some (((sampleCubic.split (1 / 2)).1.split (1 / 4 / (1 / 2))).2, [],
        [(sampleCubic.split (1 / 2)).2]) ∧
    monoNext sampleExtrema [] [(sampleCubic.split (1 / 2)).2] =
      some ((sampleCubic.split (1 / 2)).2, [], []) ∧
    cubicEval (((sampleCubic.split (1 / 2)).1.split (1 / 4 / (1 / 2))).1) 0 =
      cubicEval sampleCubic (1 / 4 * 0) ∧
    cubicEval (((sampleCubic.split (1 / 2)).1.split (1 / 4 / (1 / 2))).2) 0 =
      cubicEval sampleCubic (1 / 4 + 0 * (1 / 2 - 1 / 4)) ∧
    cubicEval ((sampleCubic.split (1 / 2)).2) 0 =
      cubicEval sampleCubic (1 / 2 + 0 * (1 - 1 / 2)) :=
  (monotonic_conversion_emits_pieces_in_order sampleExtrema sampleCubic [] (1 / 4) (1 / 2) 0
    rfl (by norm_num) (by norm_num)).1 rfl

/-! ## Scene batching (`SceneBuilder::build_batch` in main.rs)

The builder walks objects in paint order. Per object it (1) breaks out of the
whole loop if adding the object's fills would exceed `MAX_FILLS_PER_BATCH`,
(2) copies non-solid, non-occluded tiles into the batch, breaking out of the
tile loop when `batch.mask_tiles.len() as u16 == MAX_MASKS_PER_BATCH`,
recording `object_tile_index -> batch_mask_tile_index` in a scratch vector
initialised to `u16::MAX`, (3) copies fills whose tile got a mask index, and
(4) advances `current_object_index` — also after the tile-loop break of (2).
The tile loop reads `object.solid_tiles[tile_index]` alongside
`object.tiles`, modelled by walking `tiles.zip solidTiles`. -/

def MAX_FILLS_PER_BATCH : ℕ := 131072

def MAX_MASKS_PER_BATCH : ℕ := 65535

structure FillBatchPrimitive where
  px : ℕ
  subpx : ℕ
  mask_tile_index : ℕ
deriving DecidableEq

structure MaskTileBatchPrimitive where
  tile : TileObjectPrimitive
  shader : ℕ
deriving DecidableEq

structure Batch where
  fills : List FillBatchPrimitive
  mask_tiles : List MaskTileBatchPrimitive
deriving DecidableEq

/-- `Batch::is_empty`: only the mask tiles are consulted. -/
def Batch.is_empty (b : Batch) : Bool := b.mask_tiles.isEmpty

/-- The mask-tile copying loop of `build_batch`. Arguments after the shader:
remaining (tile, solid-bit) pairs, current tile index, batch mask tiles so
far, and the scratch mapping (sentinel 65535 = `u16::MAX`). The `% 65536`
mirrors the `as u16` cast of `batch.mask_tiles.len()`. -/
def copyMaskTiles (zb : ZBuffer) (sceneRect : TileRect) (oi : ℕ) (shader : ℕ) :
    List (TileObjectPrimitive × Bool) → ℕ → List MaskTileBatchPrimitive → List ℕ →
      List MaskTileBatchPrimitive × List ℕ
  | [], _, masks, mapping => (masks, mapping)
  | (t, sol) :: rest, ti, masks, mapping =>
    if sol = true then copyMaskTiles zb sceneRect oi shader rest (ti + 1) masks mapping
    else if zb.test (sceneTileIndex sceneRect t.tile_x t.tile_y) oi = false then
      copyMaskTiles zb sceneRect oi shader rest (ti + 1) masks mapping
    else if masks.length % 65536 = MAX_MASKS_PER_BATCH then (masks, mapping)
    else
      copyMaskTiles zb sceneRect oi shader rest (ti + 1) (masks ++ [⟨t, shader⟩])
        (mapping.set ti (masks.length % 65536))

/-- The fill remap-and-copy loop of `build_batch`: a fill is kept only when
its tile's mapping entry is `< u16::MAX`. -/
def copyFills (o : BuiltObject) (mapping : List ℕ) :
    List FillObjectPrimitive → List FillBatchPrimitive → List FillBatchPrimitive
  | [], acc => acc
  | f :: fs, acc =>
    let mi := mapping.getD (o.tile_coords_to_index f.tile_x f.tile_y).toNat 65535
    if mi < 65535 then copyFills o mapping fs (acc ++ [⟨f.px, f.subpx, mi⟩])
    else copyFills o mapping fs acc

/-- The `while self.current_object_index < self.objects.len()` loop of
`build_batch`, over the remaining objects, returning the batch and the final
`current_object_index`. -/
def buildBatchLoop (zb : ZBuffer) (sceneRect : TileRect) :
    List BuiltObject → ℕ → Batch → Batch × ℕ
  | [], idx, batch => (batch, idx)
  | o :: os, idx, batch =>
    if batch.fills.length + o.fills.length > MAX_FILLS_PER_BATCH then (batch, idx)
    else
      let mm := copyMaskTiles zb sceneRect idx o.shader (o.tiles.zip o.solidTiles) 0
        batch.mask_tiles (List.replicate o.tiles.length 65535)
      let fills := copyFills o mm.2 o.fills batch.fills
      buildBatchLoop zb sceneRect os (idx + 1) ⟨fills, mm.1⟩

/-- `SceneBuilder::build_batch`: runs the loop from the current index on a
fresh batch; returns `None` when the batch is empty (no mask tiles). -/
def buildBatch (zb : ZBuffer) (sceneRect : TileRect) (objs : List BuiltObject) (idx : ℕ) :
    Option Batch × ℕ :=
  let r := buildBatchLoop zb sceneRect (objs.drop idx) idx ⟨[], []⟩
  (if r.1.is_empty = true then none else some r.1, r.2)

/-- `while let Some(batch) = scene_builder.build_batch() { batches.push(batch) }`
(fuelled; each `Some` advances the index past at least one object, so
`objs.length + 1` rounds suffice). -/
def buildBatchesAux (zb : ZBuffer) (sceneRect : TileRect) (objs : List BuiltObject) :
    ℕ → ℕ → List Batch → List Batch
  | 0, _, acc => acc
  | fuel + 1, idx, acc =>
    match buildBatch zb sceneRect objs idx with
    | (none, _) => acc
    | (some b, idx') => buildBatchesAux zb sceneRect objs fuel idx' (acc ++ [b])

def buildBatches (zb : ZBuffer) (sceneRect : TileRect) (objs : List BuiltObject) : List Batch :=
  buildBatchesAux zb sceneRect objs (objs.length + 1) 0 []

theorem copyMaskTiles_len_le (zb : ZBuffer) (sceneRect : TileRect) (oi shader : ℕ)
    (ts : List (TileObjectPrimitive × Bool)) :
    ∀ (ti : ℕ) (masks : List MaskTileBatchPrimitive) (mapping : List ℕ),
      masks.length ≤ MAX_MASKS_PER_BATCH →
      (copyMaskTiles zb sceneRect oi shader ts ti masks mapping).1.length ≤
        MAX_MASKS_PER_BATCH := by
  induction ts with
  | nil => intro ti masks mapping h; exact h
  | cons p rest ih =>
      intro ti masks mapping h
      obtain ⟨t, sol⟩ := p
      rw [copyMaskTiles]
      by_cases hsol : sol = true
      · rw [if_pos hsol]; exact ih _ _ _ h
      · rw [if_neg hsol]
        by_cases htest : zb.test (sceneTileIndex sceneRect t.tile_x t.tile_y) oi = false
        · rw [if_pos htest]; exact ih _ _ _ h
        · rw [if_neg htest]
          by_cases hcap : masks.length % 65536 = MAX_MASKS_PER_BATCH
          · rw [if_pos hcap]; exact h
          · rw [if_neg hcap]
            refine ih _ _ _ ?_
            have : masks.length < MAX_MASKS_PER_BATCH := by
              rw [MAX_MASKS_PER_BATCH] at *
              omega
            simpa using this
      
theorem copyFills_len_le (o : BuiltObject) (mapping : List ℕ)
    (fs : List FillObjectPrimitive) :
    ∀ acc : List FillBatchPrimitive,
      (copyFills o mapping fs acc).length ≤ acc.length + fs.length := by
  induction fs with
  | nil => intro acc; simp [copyFills]
  | cons f rest ih =>
      intro acc
      rw [copyFills]
      split
      · calc (copyFills o mapping rest (acc ++ [⟨f.px, f.subpx, _⟩])).length
            ≤ (acc ++ [(⟨f.px, f.subpx, _⟩ : FillBatchPrimitive)]).length + rest.length := ih _
          _ ≤ acc.length + (rest.length + 1) := by
              simp only [List.length_append, List.length_singleton]
              omega
          _ = acc.length + (f :: rest).length := by simp
      · calc (copyFills o mapping rest acc).length ≤ acc.length + rest.length := ih _
          _ ≤ acc.length + (f :: rest).length := by simp

theorem buildBatchLoop_bounds (zb : ZBuffer) (sceneRect : TileRect) (os : List BuiltObject) :
    ∀ (idx : ℕ) (batch : Batch),
      batch.fills.length ≤ MAX_FILLS_PER_BATCH →
      batch.mask_tiles.length ≤ MAX_MASKS_PER_BATCH →
      (buildBatchLoop zb sceneRect os idx batch).1.fills.length ≤ MAX_FILLS_PER_BATCH ∧
      (buildBatchLoop zb sceneRect os idx batch).1.mask_tiles.length ≤ MAX_MASKS_PER_BATCH := by
  induction os with
  | nil => intro idx batch h1 h2; exact ⟨h1, h2⟩
  | cons o rest ih =>
      intro idx batch h1 h2
      rw [buildBatchLoop]
      by_cases hg : batch.fills.length + o.fills.length > MAX_FILLS_PER_BATCH
      · rw [if_pos hg]; exact ⟨h1, h2⟩
      · rw [if_neg hg]
        refine ih _ _ ?_ ?_
        · calc (copyFills o _ o.fills batch.fills).length
              ≤ batch.fills.length + o.fills.length := copyFills_len_le _ _ _ _
            _ ≤ MAX_FILLS_PER_BATCH := by omega
        · exact copyMaskTiles_len_le zb sceneRect idx o.shader _ 0 _ _ h2

/-- C2: every batch returned by `build_batch` has at most
`MAX_FILLS_PER_BATCH = 131072` fills and at most
`MAX_MASKS_PER_BATCH = 65535` mask tiles. -/
theorem build_batch_respects_batch_capacities (zb : ZBuffer) (sceneRect : TileRect)
    (objs : List BuiltObject) (idx : ℕ) (b : Batch) (idx' : ℕ)
    (h : buildBatch zb sceneRect objs idx = (some b, idx')) :
    b.fills.length ≤ MAX_FILLS_PER_BATCH ∧ b.mask_tiles.length ≤ MAX_MASKS_PER_BATCH := by
  have hb := buildBatchLoop_bounds zb sceneRect (objs.drop idx) idx ⟨[], []⟩
    (by simp) (by simp)
  rw [buildBatch] at h
  by_cases he : (buildBatchLoop zb sceneRect (objs.drop idx) idx ⟨[], []⟩).1.is_empty = true
  · rw [if_pos he] at h
    simp at h
  · rw [if_neg he] at h
    have hfst : (buildBatchLoop zb sceneRect (objs.drop idx) idx ⟨[], []⟩).1 = b := by
      have h2 := congrArg Prod.fst h
      simpa using h2
    rw [← hfst]
    exact hb

def smallObject : BuiltObject :=
  ⟨⟨0, 0, 1, 1⟩, [⟨0, 0, 0⟩], [], [false], 0⟩

/-- C2 witness: a one-object scene whose single visible tile produces a batch
with one mask tile and no fills. -/
theorem build_batch_respects_batch_capacities_witness :
    (Batch.mk [] [⟨⟨0, 0, 0⟩, 0⟩]).fills.length ≤ MAX_FILLS_PER_BATCH ∧
    (Batch.mk [] [⟨⟨0, 0, 0⟩, 0⟩]).mask_tiles.length ≤ MAX_MASKS_PER_BATCH :=
  build_batch_respects_batch_capacities (ZBuffer.new ⟨0, 0, 1, 1⟩) ⟨0, 0, 1, 1⟩
    [smallObject] 0 (Batch.mk [] [⟨⟨0, 0, 0⟩, 0⟩]) 1 (by decide)

theorem copyMaskTiles_all_visible (zb : ZBuffer) (sceneRect : TileRect) (oi shader : ℕ)
    (ts : List (TileObjectPrimitive × Bool)) :
    ∀ (ti : ℕ) (masks : List MaskTileBatchPrimitive) (mapping : List ℕ),
      (∀ p ∈ ts, p.2 = false) →
      (∀ p ∈ ts, zb.test (sceneTileIndex sceneRect p.1.tile_x p.1.tile_y) oi = true) →
      masks.length ≤ 65535 →
      (copyMaskTiles zb sceneRect oi shader ts ti masks mapping).1.length =
        min 65535 (masks.length + ts.length) := by
  induction ts with
  | nil =>
      intro ti masks mapping _ _ h
      rw [copyMaskTiles]
      simp only [List.length_nil]
      omega
  | cons p rest ih =>
      intro ti masks mapping h1 h2 h
      obtain ⟨t, sol⟩ := p
      have hsol : sol = false := h1 (t, sol) (by simp)
      have htest : zb.test (sceneTileIndex sceneRect t.tile_x t.tile_y) oi = true :=
        h2 (t, sol) (by simp)
      rw [copyMaskTiles]
      rw [if_neg (by simp [hsol]), if_neg (by simp [htest])]
      by_cases hcap : masks.length % 65536 = MAX_MASKS_PER_BATCH
      · rw [if_pos hcap]
        rw [MAX_MASKS_PER_BATCH] at hcap
        simp only [List.length_cons]
        omega
      · rw [if_neg hcap]
        rw [MAX_MASKS_PER_BATCH] at hcap
        have hlt : masks.length < 65535 := by omega
        have hrec := ih (ti + 1) (masks ++ [({ tile := t, shader := shader } : MaskTileBatchPrimitive)])
          (mapping.set ti (masks.length % 65536))
          (fun q hq => h1 q (by simp [hq])) (fun q hq => h2 q (by simp [hq]))
          (by simp only [List.length_append, List.length_singleton]; omega)
        have e1 : (masks ++ [({ tile := t, shader := shader } : MaskTileBatchPrimitive)]).length
            = masks.length + 1 := by simp
        rw [hrec, e1]
        simp only [List.length_cons]
        omega

def bigTiles : List TileObjectPrimitive :=
  (List.range 65536).map fun (i : ℕ) => ⟨((i % 256 : ℕ) : ℤ), ((i / 256 : ℕ) : ℤ), 0⟩

/-- A legitimate `BuiltObject` over a 256 × 256 tile rect whose 65536 tiles
are all non-solid. -/
def bigObject : BuiltObject :=
  ⟨⟨0, 0, 256, 256⟩, bigTiles, [], List.replicate 65536 false, 0⟩

def bigZBuffer : ZBuffer := ZBuffer.new ⟨0, 0, 256, 256⟩

theorem bigObject_tiles_eq : bigObject.tiles = bigTiles := by
  simp only [bigObject]

theorem bigObject_solid_eq : bigObject.solidTiles = List.replicate 65536 false := by
  simp only [bigObject]

theorem bigObject_fills_eq : bigObject.fills = [] := by
  simp only [bigObject]

theorem bigObject_shader_eq : bigObject.shader = 0 := by
  simp only [bigObject]

theorem bigObject_tiles_length : bigObject.tiles.length = 65536 := by
  rw [bigObject_tiles_eq, bigTiles, List.length_map, List.length_range]

theorem bigMasks_length :
    (copyMaskTiles bigZBuffer ⟨0, 0, 256, 256⟩ 0 0 (bigObject.tiles.zip bigObject.solidTiles) 0 []
      (List.replicate bigObject.tiles.length 65535)).1.length = 65535 := by
  have h1 : ∀ p ∈ bigObject.tiles.zip bigObject.solidTiles, p.2 = false := by
    intro p hp
    have hmem := (List.of_mem_zip hp).2
    rw [bigObject_solid_eq] at hmem
    exact List.eq_of_mem_replicate hmem
  have h2 : ∀ p ∈ bigObject.tiles.zip bigObject.solidTiles,
      bigZBuffer.test (sceneTileIndex ⟨0, 0, 256, 256⟩ p.1.tile_x p.1.tile_y) 0 = true := by
    intro p _
    have hbuf : bigZBuffer.buffer = List.replicate (256 * 256) 0 := by
      simp only [bigZBuffer, ZBuffer.new]
    rw [ZBuffer.test, hbuf, getD_replicate]
    decide
  have hmm := copyMaskTiles_all_visible bigZBuffer ⟨0, 0, 256, 256⟩ 0 0
    (bigObject.tiles.zip bigObject.solidTiles) 0 [] (List.replicate bigObject.tiles.length 65535)
    h1 h2 (by simp)
  have hzipl : (bigObject.tiles.zip bigObject.solidTiles).length = 65536 := by
    rw [List.length_zip, bigObject_tiles_length, bigObject_solid_eq, List.length_replicate]
    omega
  rw [hmm, hzipl]
  omega

theorem bigMasks_ne_nil :
    (copyMaskTiles bigZBuffer ⟨0, 0, 256, 256⟩ 0 0 (bigObject.tiles.zip bigObject.solidTiles) 0 []
      (List.replicate bigObject.tiles.length 65535)).1 ≠ [] := by
  intro h
  have hl := bigMasks_length
  rw [h] at hl
  simp at hl

theorem buildBatchLoop_big :
    buildBatchLoop bigZBuffer ⟨0, 0, 256, 256⟩ [bigObject] 0 ⟨[], []⟩ =
      (⟨[], (copyMaskTiles bigZBuffer ⟨0, 0, 256, 256⟩ 0 0
        (bigObject.tiles.zip bigObject.solidTiles) 0 []
        (List.replicate bigObject.tiles.length 65535)).1⟩, 1) := by
  rw [buildBatchLoop]
  rw [if_neg (by rw [bigObject_fills_eq]; decide)]
  simp only [bigObject_fills_eq, bigObject_shader_eq, copyFills, buildBatchLoop]

theorem batch_mk_not_empty (l : List MaskTileBatchPrimitive) (h : l ≠ []) :
    (Batch.mk [] l).is_empty = false := by
  rw [Batch.is_empty]
  exact List.isEmpty_eq_false.mpr h

theorem buildBatch_big_first : buildBatch bigZBuffer ⟨0, 0, 256, 256⟩ [bigObject] 0 =
    (some ⟨[],
      (copyMaskTiles bigZBuffer ⟨0, 0, 256, 256⟩ 0 0 (bigObject.tiles.zip bigObject.solidTiles) 0
        [] (List.replicate bigObject.tiles.length 65535)).1⟩, 1) := by
  rw [buildBatch]
  rw [List.drop_zero, buildBatchLoop_big]
  dsimp only
  rw [batch_mk_not_empty _ bigMasks_ne_nil]
  simp

theorem buildBatch_big_second : buildBatch bigZBuffer ⟨0, 0, 256, 256⟩ [bigObject] 1 =
    (none, 1) := rfl

theorem batch_mask_tiles_mk (f : List FillBatchPrimitive)
    (m : List MaskTileBatchPrimitive) : (Batch.mk f m).mask_tiles = m := rfl

theorem sum_map_mask_len_single (b : Batch) :
    (([b] : List Batch).map fun x => x.mask_tiles.length).sum = b.mask_tiles.length := by
  simp

/-- C1 is refuted by the code: on a scene consisting of one object with 65536
non-solid, non-occluded tiles (fresh all-zero Z-buffer), `build_batch` hits
`MAX_MASKS_PER_BATCH` while copying the object's tiles, breaks out of the tile
loop only, advances past the object, and the driver gets `None` on the next
call: the emitted batches contain 65535 mask tiles in total, so the 65536th
visible tile appears in no batch instead of opening a new one. -/
theorem build_batch_mask_overflow_drops_tiles :
    ((buildBatches bigZBuffer ⟨0, 0, 256, 256⟩ [bigObject]).map fun b =>
        b.mask_tiles.length).sum = 65535 ∧
      bigObject.tiles.length = 65536 := by
  refine ⟨?_, bigObject_tiles_length⟩
  have haux : buildBatches bigZBuffer ⟨0, 0, 256, 256⟩ [bigObject] =
      [⟨[], (copyMaskTiles bigZBuffer ⟨0, 0, 256, 256⟩ 0 0
        (bigObject.tiles.zip bigObject.solidTiles) 0 []
        (List.replicate bigObject.tiles.length 65535)).1⟩] := by
    rw [buildBatches]
    rw [show [bigObject].length + 1 = 2 from rfl]
    rw [buildBatchesAux]
    rw [buildBatch_big_first]
    show buildBatchesAux bigZBuffer ⟨0, 0, 256, 256⟩ [bigObject] 1 1
      ([] ++ [⟨[], (copyMaskTiles bigZBuffer ⟨0, 0, 256, 256⟩ 0 0
        (bigObject.tiles.zip bigObject.solidTiles) 0 []
        (List.replicate bigObject.tiles.length 65535)).1⟩]) = _
    rw [buildBatchesAux]
    rw [buildBatch_big_second]
    dsimp only
    rw [List.nil_append]
  rw [haux, sum_map_mask_len_single, batch_mask_tiles_mk]
  exact bigMasks_length

end Pathfinder
